import Mathlib

/-!
# VORTEX-V512 v1 — shallow embedding and verification

A shallow embedding of `src/vortex_v512_v1.py` (the VORTEX-V512 v1.0 hash).
Byte strings are `List Nat` (each element intended `< 256`, as Python byte
strings guarantee); 64-bit lanes are `Nat` with wrapping made explicit by
`&&& 0xFFFFFFFFFFFFFFFF` / `% 2 ^ 64` exactly where the source wraps.
The in-place numpy mutation of the 16-lane state is rendered as explicit
state passing over `List Nat`, with `List.set` / `List.getD` for the
element writes and reads, folded in the same ascending iteration order as
the Python loops.  The functions that read the global round-constant table
take it as an explicit parameter `rc`; the source-named entry points
instantiate it with `RC`, and a heap-style wrapper (`heapDigest`) keeps the
two global tables addressable so that the frame property can be stated.
-/

namespace Vortex

/-- Source table `VORTEX_IV`: the 16-word initialization vector
(source lines 23–28). -/
def VORTEX_IV : List Nat := [
  0x6a09e667f3bcc908, 0xbb67ae8584caa73b, 0x3c6ef372fe94f82b, 0xa54ff53a5f1d36f1,
  0x510e527fade682d1, 0x9b05688c2b3e6c1f, 0x1f83d9abfb41bd6b, 0x5be0cd19137e2179,
  0x428a2f98d728ae22, 0x7137449123ef65cd, 0xb5c0fbcfe4d3b2f, 0xe9b5dba58189dbbc,
  0x3956c25bf348b538, 0x59f111f1b605d019, 0x923f82a4af194f9b, 0xab1c5ed5da6d8118]

/-- Source table `RC`: the 12 round constants (source lines 31–35). -/
def RC : List Nat := [
  0x243f6a8885a308d3, 0x13198a2e03707344, 0xa4093822299f31d0, 0x082efa98ec4e6c89,
  0x452821e638d01377, 0xbe5466cf34e90c6c, 0xc0ac29b7c97c50dd, 0x3f84d5b5b5470917,
  0x9216d5d98979fb1b, 0xd1310ba698dfb5ac, 0x2ff72e1e2138591c, 0xb62d3e9b13c1bcc9]

/-- Source `rotl` (lines 37–40): shift-compose-mask rotation
`((x << (r & 63)) | (x >> ((64 - r) & 63))) & 0xFFFFFFFFFFFFFFFF`.
The source computes `64 - r` in `uint64`, so `(64 - r) & 63` denotes
`(64 - r) mod 64` over the integers, which over `Nat` is
`(64 - r % 64) % 64` (no truncated subtraction occurs since `r % 64 ≤ 63`). -/
def rotl (x r : Nat) : Nat :=
  ((x <<< (r % 64)) ||| (x >>> ((64 - r % 64) % 64))) &&& 0xFFFFFFFFFFFFFFFF

/-- Butterfly partner index: `target = (i + offset) % 16` with
`offset = (r % 7) + 1` (source lines 56–58). -/
def butterflyTarget (r i : Nat) : Nat := (i + (r % 7 + 1)) % 16

/-- One iteration of the butterfly loop body (source lines 58–62):
`s[i] = (s[i] + s[target]) & mask`, `s[target] ^= s[i]`,
`s[target] = rotl(s[target], 19 + i + r)`. -/
def butterflyStep (r : Nat) (s : List Nat) (i : Nat) : List Nat :=
  let target := butterflyTarget r i
  let s1 := s.set i ((s.getD i 0 + s.getD target 0) &&& 0xFFFFFFFFFFFFFFFF)
  let s2 := s1.set target ((s1.getD target 0) ^^^ (s1.getD i 0))
  s2.set target (rotl (s2.getD target 0) (19 + i + r))

/-- Round-constant injection (source lines 51–52):
`s[0] ^= rc[r]`, `s[15] ^= rotl(rc[r], r + 7)`. -/
def injectConsts (rc : List Nat) (r : Nat) (s : List Nat) : List Nat :=
  let s1 := s.set 0 ((s.getD 0 0) ^^^ rc.getD r 0)
  s1.set 15 ((s1.getD 15 0) ^^^ rotl (rc.getD r 0) (r + 7))

/-- One iteration of the shredder loop body (source lines 65–66):
`s[i+1] ^= rotl(s[i], 11)`. -/
def shredStep (s : List Nat) (i : Nat) : List Nat :=
  s.set (i + 1) ((s.getD (i + 1) 0) ^^^ rotl (s.getD i 0) 11)

/-- One round `r` of the permutation: constant injection, then the
butterfly loop for `i = 0..15` in ascending order, then the shredder loop
for `i = 0..14` in ascending order (source lines 49–66). -/
def vortexRound (rc : List Nat) (s : List Nat) (r : Nat) : List Nat :=
  (List.range 15).foldl shredStep
    ((List.range 16).foldl (butterflyStep r) (injectConsts rc r s))

/-- Permutation engine with the round-constant table explicit:
12 rounds `r = 0..11` (source lines 42–66, with `rc` in place of the
global `RC`). -/
def vortexPerm (rc : List Nat) (s : List Nat) : List Nat :=
  (List.range 12).foldl (vortexRound rc) s

/-- Source `vortex_p` (lines 42–66): the permutation engine reading the
global table `RC`. -/
def vortex_p (s : List Nat) : List Nat := vortexPerm RC s

/-- Body of the absorbing loop for block `i` (source lines 72–76):
XOR words `i*8 .. i*8+7` into lanes `0..7`, then one permutation call. -/
def absorbBlockAt (rc : List Nat) (words : List Nat) (state : List Nat)
    (i : Nat) : List Nat :=
  vortexPerm rc ((List.range 8).foldl
    (fun st j => st.set j ((st.getD j 0) ^^^ words.getD (i * 8 + j) 0)) state)

/-- Absorbing loop with the round-constant table explicit
(source lines 68–76): `len(words) / 8` blocks in ascending order. -/
def vortexAbsorb (rc : List Nat) (state words : List Nat) : List Nat :=
  (List.range (words.length / 8)).foldl (absorbBlockAt rc words) state

/-- Source `vortex_core_absorb` (lines 68–76), reading the global `RC`. -/
def vortex_core_absorb (state words : List Nat) : List Nat :=
  vortexAbsorb RC state words

/-- Source `pad_len` (line 87): `(64 - (len(data) + 1) % 64) % 64`, the
number of zero bytes appended after the `0x06` domain separator. -/
def padLen (n : Nat) : Nat := (64 - (n + 1) % 64) % 64

/-- Source padded buffer (lines 86–90): `data ++ [0x06]`, then `padLen`
zero bytes, then the final byte ORed with `0x80`. -/
def pad (data : List Nat) : List Nat :=
  let padded := data ++ 0x06 :: List.replicate (padLen data.length) 0
  padded.set (padded.length - 1) ((padded.getD (padded.length - 1) 0) ||| 0x80)

/-- Big-endian 64-bit word from 8 bytes (source line 93, dtype `>u8`). -/
def beWord (b0 b1 b2 b3 b4 b5 b6 b7 : Nat) : Nat :=
  ((((((b0 * 256 + b1) * 256 + b2) * 256 + b3) * 256 + b4) * 256 + b5) * 256
    + b6) * 256 + b7

/-- Source word stream (line 93): consecutive 8-byte chunks read as
big-endian 64-bit words.  In the program the buffer length is always a
multiple of 64, so no trailing partial chunk ever exists. -/
def toWords : List Nat → List Nat
  | b0 :: b1 :: b2 :: b3 :: b4 :: b5 :: b6 :: b7 :: rest =>
      beWord b0 b1 b2 b3 b4 b5 b6 b7 :: toWords rest
  | _ => []

/-- Lowercase hexadecimal digit for a value below 16 (digits 0–9, then
letters a–f). -/
def hexChar (n : Nat) : Char :=
  if n < 10 then Char.ofNat (48 + n) else Char.ofNat (87 + n)

/-- Big-endian lowercase hex digits of `x`, without leading zeros
(a single zero digit for 0) — the digits Python prints for format `x`. -/
def hexDigits (x : Nat) : List Char :=
  if x < 16 then [hexChar x]
  else hexDigits (x / 16) ++ [hexChar (x % 16)]
termination_by x
decreasing_by exact Nat.div_lt_self (by omega) (by omega)

/-- Python format `016x` (source line 99): the hex digits of `x`,
zero-padded on the left to a minimum width of 16. -/
def fmt016x (x : Nat) : List Char :=
  List.replicate (16 - (hexDigits x).length) '0' ++ hexDigits x

/-- Source `vortex_v512_v1` (lines 78–99): copy the IV, pad, read the
big-endian word stream, absorb, one finalization permutation, and join
the `016x` renderings of lanes `0..7`. -/
def vortex_v512_v1 (data : List Nat) : String :=
  let state := VORTEX_IV
  let words := toWords (pad data)
  let s1 := vortex_core_absorb state words
  let s2 := vortex_p s1
  String.mk (((s2.take 8).map fmt016x).flatten)

/-! ## Definitions written from the specification text

The definitions in this section are transcribed from the wording of the
specification (not from the source); the refinement theorems below compare
them with the source embedding above. -/

/-- Specification-side state: lane `i` of the 16-lane state is the value
at index `i`. -/
def toFun (s : List Nat) : Fin 16 → Nat := fun i => s.getD i.val 0

/-- Specification wording: `state[0] ^= RC[r]` and
`state[15] ^= rotateLeft(RC[r], r+7)`. -/
def specInject (r : Nat) (s : Fin 16 → Nat) : Fin 16 → Nat :=
  let s1 := Function.update s ⟨0, by omega⟩ ((s ⟨0, by omega⟩) ^^^ RC.getD r 0)
  Function.update s1 ⟨15, by omega⟩
    ((s1 ⟨15, by omega⟩) ^^^ rotl (RC.getD r 0) (r + 7))

/-- Specification wording, butterfly iteration `i` of round `r`: with
`offset = (r mod 7) + 1` and `target = (i + offset) mod 16`,
`state[i] := (state[i] + state[target]) mod 2^64`, then
`state[target] ^= state[i]` (the just-updated `state[i]`), then
`state[target] := rotateLeft(state[target], 19 + i + r)`. -/
def specButterflyStep (r : Nat) (s : Fin 16 → Nat) (i : Nat) : Fin 16 → Nat :=
  let ti : Fin 16 := ⟨(i + (r % 7 + 1)) % 16, by omega⟩
  let ii : Fin 16 := ⟨i % 16, by omega⟩
  let s1 := Function.update s ii ((s ii + s ti) % 2 ^ 64)
  let s2 := Function.update s1 ti ((s1 ti) ^^^ (s1 ii))
  Function.update s2 ti (rotl (s2 ti) (19 + i + r))

/-- Specification wording, shredder iteration `i`:
`state[i+1] ^= rotateLeft(state[i], 11)` (the indices are reduced mod 16
only to type them; the loop range keeps them below 15). -/
def specShredStep (s : Fin 16 → Nat) (i : Nat) : Fin 16 → Nat :=
  Function.update s ⟨(i + 1) % 16, by omega⟩
    ((s ⟨(i + 1) % 16, by omega⟩) ^^^ rotl (s ⟨i % 16, by omega⟩) 11)

/-- Specification wording for one round: constant injection, butterfly
for `i = 0..15` in strict ascending order, shredder for `i = 0..14` in
strict ascending order. -/
def specRound (s : Fin 16 → Nat) (r : Nat) : Fin 16 → Nat :=
  (List.range 15).foldl specShredStep
    ((List.range 16).foldl (specButterflyStep r) (specInject r s))

/-- Specification wording for the permutation engine: exactly 12 rounds
`r = 0..11`. -/
def specPerm (s : Fin 16 → Nat) : Fin 16 → Nat :=
  (List.range 12).foldl specRound s

/-- Specification wording for absorption of one 8-word block: XOR the 8
words into lanes `0..7` respectively, then one permutation call. -/
def absorbBlockSpec (state block : List Nat) : List Nat :=
  vortex_p ((List.range 8).foldl
    (fun st j => st.set j ((st.getD j 0) ^^^ block.getD j 0)) state)

/-- Consecutive 8-word blocks of the word stream. -/
def chunks8 : List Nat → List (List Nat)
  | w0 :: w1 :: w2 :: w3 :: w4 :: w5 :: w6 :: w7 :: rest =>
      [w0, w1, w2, w3, w4, w5, w6, w7] :: chunks8 rest
  | _ => []

/-! ## Inverse of the permutation -/

/-- Right rotation, realized as a complementary left rotation. -/
def rotr (x r : Nat) : Nat := rotl x (64 - r % 64)

/-- Inverse of one butterfly iteration: undo the rotation of
`state[target]`, undo its XOR against `state[i]`, undo the wrapping
addition into `state[i]`. -/
def butterflyUnstep (r : Nat) (s : List Nat) (i : Nat) : List Nat :=
  let target := butterflyTarget r i
  let s1 := s.set target ((rotr (s.getD target 0) (19 + i + r)) ^^^ (s.getD i 0))
  s1.set i ((s1.getD i 0 + (2 ^ 64 - s1.getD target 0)) % 2 ^ 64)

/-- Inverse of the butterfly loop: undo the iterations in descending
order. -/
def butterflyUnround (r : Nat) (s : List Nat) : List Nat :=
  (List.range 16).reverse.foldl (butterflyUnstep r) s

/-- Inverse of the shredder loop: its iterations are self-inverse, applied
in descending order. -/
def shredUnround (s : List Nat) : List Nat :=
  (List.range 15).reverse.foldl shredStep s

/-- Inverse of one permutation round (constant injection is
self-inverse). -/
def vortexUnround (s : List Nat) (r : Nat) : List Nat :=
  injectConsts RC r (butterflyUnround r (shredUnround s))

/-- Inverse of `vortex_p`: undo the 12 rounds in descending order. -/
def vortex_p_inv (s : List Nat) : List Nat :=
  (List.range 12).reverse.foldl vortexUnround s

/-! ## Heap-style wrapper -/

/-- Well-formed 16-lane state: 16 lanes, each a 64-bit value. -/
def StateOk (s : List Nat) : Prop := s.length = 16 ∧ ∀ x ∈ s, x < 2 ^ 64

/-- Digest computation over an addressable heap of numpy arrays: the IV
table lives at `ivRef`, the round-constant table at `rcRef`, and the
working state is materialized at `sRef` as a copy of the IV cell (source
line 83, `state = VORTEX_IV.copy()`).  The absorbing loop and the
finalization permutation write only the `sRef` cell and read the constant
tables from their cells. -/
def heapDigest (σ : Nat → List Nat) (ivRef rcRef sRef : Nat)
    (data : List Nat) : (Nat → List Nat) × String :=
  let σ1 := Function.update σ sRef (σ ivRef)
  let words := toWords (pad data)
  let σ2 := Function.update σ1 sRef (vortexAbsorb (σ1 rcRef) (σ1 sRef) words)
  let σ3 := Function.update σ2 sRef (vortexPerm (σ2 rcRef) (σ2 sRef))
  (σ3, String.mk ((((σ3 sRef).take 8).map fmt016x).flatten))

/-! ## List access toolkit -/

theorem getD_eq_getElem {l : List Nat} {k : Nat} (hk : k < l.length) :
    l.getD k 0 = l[k] := by
  simp [List.getD_eq_getElem?_getD, List.getElem?_eq_getElem hk]

theorem getD_set_eq {l : List Nat} {k : Nat} (hk : k < l.length) (v : Nat) :
    (l.set k v).getD k 0 = v := by
  simp [List.getD_eq_getElem?_getD, List.getElem?_set_self hk]

theorem getD_set_ne {l : List Nat} {k j : Nat} (h : k ≠ j) (v : Nat) :
    (l.set k v).getD j 0 = l.getD j 0 := by
  simp [List.getD_eq_getElem?_getD, List.getElem?_set_ne h]

theorem ext_getD {l1 l2 : List Nat} (hlen : l1.length = l2.length)
    (h : ∀ k, l1.getD k 0 = l2.getD k 0) : l1 = l2 := by
  apply List.ext_getElem hlen
  intro i h1 h2
  have hi := h i
  rwa [getD_eq_getElem h1, getD_eq_getElem h2] at hi

theorem getD_lt_of_forall {s : List Nat} (h : ∀ x ∈ s, x < 2 ^ 64) (k : Nat) :
    s.getD k 0 < 2 ^ 64 := by
  by_cases hk : k < s.length
  · rw [getD_eq_getElem hk]; exact h _ (List.getElem_mem hk)
  · rw [List.getD_eq_getElem?_getD, List.getElem?_eq_none (by omega)]
    exact Nat.two_pow_pos 64

/-! ## Masking and rotation lemmas -/

theorem and_mask_eq_mod (x : Nat) : x &&& 0xFFFFFFFFFFFFFFFF = x % 2 ^ 64 := by
  have h : (0xFFFFFFFFFFFFFFFF : Nat) = 2 ^ 64 - 1 := by norm_num
  rw [h, Nat.and_pow_two_sub_one_eq_mod]

theorem and_mask_lt (x : Nat) : x &&& 0xFFFFFFFFFFFFFFFF < 2 ^ 64 := by
  rw [and_mask_eq_mod]; exact Nat.mod_lt _ (Nat.two_pow_pos 64)

theorem rotl_lt (x r : Nat) : rotl x r < 2 ^ 64 := and_mask_lt _

/-- Mathematical left rotation of a 64-bit value by `j % 64` bits: the low
`64 - j % 64` bits move up, the high `j % 64` bits wrap to the bottom. -/
def rotLeft64 (x j : Nat) : Nat :=
  (x % 2 ^ (64 - j % 64)) * 2 ^ (j % 64) + x / 2 ^ (64 - j % 64)

theorem rotl_eq_rotLeft64 (x r : Nat) (hx : x < 2 ^ 64) :
    rotl x r = rotLeft64 x r := by
  unfold rotl rotLeft64
  by_cases h0 : r % 64 = 0
  · rw [h0]
    simp [and_mask_eq_mod]
    omega
  · have hjlt : r % 64 < 64 := Nat.mod_lt _ (by omega)
    set j := r % 64 with hj
    have hm : (64 - j) % 64 = 64 - j := Nat.mod_eq_of_lt (by omega)
    rw [hm, Nat.shiftLeft_eq, Nat.shiftRight_eq_div_pow]
    have hq : x / 2 ^ (64 - j) < 2 ^ j := by
      apply Nat.div_lt_of_lt_mul
      have hpow : 2 ^ (64 - j) * 2 ^ j = 2 ^ 64 := by
        rw [← Nat.pow_add]; congr 1; omega
      rwa [hpow]
    rw [Nat.mul_comm x (2 ^ j), ← Nat.mul_add_lt_is_or hq, and_mask_eq_mod]
    have hsplit : x = 2 ^ (64 - j) * (x / 2 ^ (64 - j)) + x % 2 ^ (64 - j) :=
      (Nat.div_add_mod x (2 ^ (64 - j))).symm
    set q := x / 2 ^ (64 - j)
    set c := x % 2 ^ (64 - j) with hc
    have hclt : c < 2 ^ (64 - j) := Nat.mod_lt _ (Nat.two_pow_pos _)
    have hpow2 : 2 ^ j * 2 ^ (64 - j) = 2 ^ 64 := by
      rw [← Nat.pow_add]; congr 1; omega
    have hrw : 2 ^ j * x + q = 2 ^ 64 * q + (2 ^ j * c + q) := by
      conv_lhs => rw [hsplit]
      rw [Nat.mul_add, ← Nat.mul_assoc, hpow2, Nat.add_assoc]
    have hlt : 2 ^ j * c + q < 2 ^ 64 := by
      have h1 : 2 ^ j * c + q < 2 ^ j * c + 2 ^ j := by omega
      have h2 : 2 ^ j * c + 2 ^ j = 2 ^ j * (c + 1) := by ring
      have h3 : 2 ^ j * (c + 1) ≤ 2 ^ j * 2 ^ (64 - j) :=
        Nat.mul_le_mul_left _ (by omega)
      have hpow : 2 ^ j * 2 ^ (64 - j) = 2 ^ 64 := by
        rw [← Nat.pow_add]; congr 1; omega
      omega
    rw [hrw, Nat.mul_add_mod, Nat.mod_eq_of_lt hlt, Nat.mul_comm]

/-- C6: for every 64-bit value `x` and every rotation amount `r`,
`rotl x r` equals the left-rotation of `x` by `r mod 64` bits, the
rotation amount is reduced modulo 64 before use, `rotl x 0 = x`, and the
result is always below `2 ^ 64`. -/
theorem rotl_correct (x r : Nat) (hx : x < 2 ^ 64) :
    rotl x r = rotLeft64 x r ∧ rotl x r = rotl x (r % 64) ∧ rotl x 0 = x ∧
      rotl x r < 2 ^ 64 := by
  refine ⟨rotl_eq_rotLeft64 x r hx, ?_, ?_, rotl_lt x r⟩
  · unfold rotl
    have h : r % 64 % 64 = r % 64 := by omega
    rw [h]
  · have h1 : rotl x 0 = x % 2 ^ 64 := by simp [rotl, and_mask_eq_mod]
    rw [h1]; omega

theorem rotl_correct_witness :
    (0xdeadbeef : Nat) < 2 ^ 64 ∧
      (rotl 0xdeadbeef 7 = rotLeft64 0xdeadbeef 7 ∧
        rotl 0xdeadbeef 7 = rotl 0xdeadbeef (7 % 64) ∧
        rotl 0xdeadbeef 0 = 0xdeadbeef ∧ rotl 0xdeadbeef 7 < 2 ^ 64) :=
  ⟨by decide, rotl_correct 0xdeadbeef 7 (by decide)⟩

/-! ## No self-pairing -/

theorem butterflyTarget_ne_of_lt (r i : Nat) (hi : i < 16) :
    butterflyTarget r i ≠ i := by
  unfold butterflyTarget; omega

/-- C7: for every round `r` in `0..11` and every lane index `i` in
`0..15`, the butterfly partner `target = (i + (r mod 7) + 1) mod 16`
differs from `i`: no lane is ever paired with itself. -/
theorem no_self_pairing (r i : Nat) (hr : r < 12) (hi : i < 16) :
    butterflyTarget r i ≠ i :=
  butterflyTarget_ne_of_lt r i hi

theorem no_self_pairing_witness :
    (0 : Nat) < 12 ∧ (0 : Nat) < 16 ∧ butterflyTarget 0 0 ≠ 0 :=
  ⟨by decide, by decide, no_self_pairing 0 0 (by decide) (by decide)⟩

/-! ## Word stream -/

theorem toWords_cons (b0 b1 b2 b3 b4 b5 b6 b7 : Nat) (rest : List Nat) :
    toWords (b0 :: b1 :: b2 :: b3 :: b4 :: b5 :: b6 :: b7 :: rest) =
      beWord b0 b1 b2 b3 b4 b5 b6 b7 :: toWords rest := rfl

theorem beWord_eq (b0 b1 b2 b3 b4 b5 b6 b7 : Nat) :
    beWord b0 b1 b2 b3 b4 b5 b6 b7 =
      b0 * 2 ^ 56 + b1 * 2 ^ 48 + b2 * 2 ^ 40 + b3 * 2 ^ 32 + b4 * 2 ^ 24 +
        b5 * 2 ^ 16 + b6 * 2 ^ 8 + b7 := by
  unfold beWord; ring

/-! ## Padding -/

theorem padLen_lt (n : Nat) : padLen n < 64 := by unfold padLen; omega

theorem pad_length (x : List Nat) :
    (pad x).length = x.length + 1 + padLen x.length := by
  simp only [pad]
  simp
  omega

theorem pad_length_mod (x : List Nat) : (pad x).length % 64 = 0 := by
  rw [pad_length]; unfold padLen; omega

theorem pad_def' (x : List Nat) :
    pad x = (x ++ 0x06 :: List.replicate (padLen x.length) 0).set
      (x.length + padLen x.length)
      (((x ++ 0x06 :: List.replicate (padLen x.length) 0).getD
        (x.length + padLen x.length) 0) ||| 0x80) := by
  simp only [pad]
  have h : (x ++ 0x06 :: List.replicate (padLen x.length) 0).length - 1
      = x.length + padLen x.length := by simp
  rw [h]

theorem pad_eq_of_pos (x : List Nat) (hp : 0 < padLen x.length) :
    pad x = x ++ 0x06 :: (List.replicate (padLen x.length - 1) 0 ++ [0x80]) := by
  obtain ⟨q, hq⟩ : ∃ q, padLen x.length = q + 1 := ⟨padLen x.length - 1, by omega⟩
  rw [pad_def', hq]
  have hget : (x ++ 0x06 :: List.replicate (q + 1) 0).getD
      (x.length + (q + 1)) 0 = 0 := by
    rw [List.getD_eq_getElem?_getD, List.getElem?_append_right (by omega)]
    have h1 : x.length + (q + 1) - x.length = q + 1 := by omega
    rw [h1, List.getElem?_cons_succ, List.getElem?_replicate_of_lt (by omega)]
    rfl
  rw [hget]
  rw [List.set_append_right _ _ (by omega)]
  have h2 : x.length + (q + 1) - x.length = q + 1 := by omega
  rw [h2, List.set_cons_succ]
  have h3 : List.replicate (q + 1) (0 : Nat) = List.replicate q 0 ++ [0] :=
    List.replicate_succ' q 0
  rw [h3, List.set_append_right _ _ (by simp), ]
  simp

theorem pad_eq_of_zero (x : List Nat) (hp : padLen x.length = 0) :
    pad x = x ++ [0x86] := by
  rw [pad_def', hp]
  simp only [List.replicate_zero, Nat.add_zero]
  have hget : (x ++ [0x06]).getD x.length 0 = 0x06 := by
    rw [List.getD_eq_getElem?_getD, List.getElem?_concat_length]
    rfl
  rw [hget, List.set_append_right _ _ (by omega), Nat.sub_self,
    List.set_cons_zero]
  have hor : (0x06 : Nat) ||| 0x80 = 0x86 := by decide
  rw [hor]

/-- C3: for every byte list `x`, the padded buffer is `x`, then the `0x06`
domain separator, then `padLen = (64 - ((len x + 1) mod 64)) mod 64` zero
bytes, with the final byte then ORed with `0x80` (explicitly: a trailing
`0x80` byte when `padLen > 0`, a merged `0x86` byte when `padLen = 0`);
the padded length is a multiple of 64, and the word stream reads each
consecutive 8-byte chunk as a big-endian unsigned 64-bit integer. -/
theorem padding_spec (x : List Nat) :
    (pad x).length = x.length + 1 + padLen x.length ∧
    padLen x.length = (64 - (x.length + 1) % 64) % 64 ∧
    (pad x).length % 64 = 0 ∧
    (0 < padLen x.length →
      pad x = x ++ 0x06 :: (List.replicate (padLen x.length - 1) 0 ++ [0x80])) ∧
    (padLen x.length = 0 → pad x = x ++ [0x86]) ∧
    ∀ b0 b1 b2 b3 b4 b5 b6 b7 rest,
      toWords (b0 :: b1 :: b2 :: b3 :: b4 :: b5 :: b6 :: b7 :: rest) =
        (b0 * 2 ^ 56 + b1 * 2 ^ 48 + b2 * 2 ^ 40 + b3 * 2 ^ 32 + b4 * 2 ^ 24 +
          b5 * 2 ^ 16 + b6 * 2 ^ 8 + b7) :: toWords rest := by
  refine ⟨pad_length x, rfl, pad_length_mod x, pad_eq_of_pos x,
    pad_eq_of_zero x, ?_⟩
  intro b0 b1 b2 b3 b4 b5 b6 b7 rest
  rw [toWords_cons, beWord_eq]

theorem padding_spec_witness : (pad []).length % 64 = 0 :=
  (padding_spec []).2.2.1

/-- C4: for every byte list `x` with `(len x + 1) mod 64 = 0`, the padding
appends no zero bytes, the padded buffer is exactly `x` plus one `0x86`
byte (the `0x06` separator ORed with `0x80`), and its length `len x + 1`
is a multiple of 64. -/
theorem pad_block_edge (x : List Nat) (h : (x.length + 1) % 64 = 0) :
    padLen x.length = 0 ∧ pad x = x ++ [0x86] ∧
      (pad x).length = x.length + 1 ∧ (pad x).length % 64 = 0 := by
  have hp : padLen x.length = 0 := by unfold padLen; omega
  refine ⟨hp, pad_eq_of_zero x hp, ?_, pad_length_mod x⟩
  rw [pad_length, hp]

theorem pad_block_edge_witness :
    ((List.replicate 63 (0 : Nat)).length + 1) % 64 = 0 ∧
      pad (List.replicate 63 0) = List.replicate 63 0 ++ [0x86] :=
  ⟨by simp, (pad_block_edge _ (by simp)).2.1⟩

/-! ## Absorption as a fold over 8-word blocks (C1) -/

theorem chunks8_cons (w0 w1 w2 w3 w4 w5 w6 w7 : Nat) (rest : List Nat) :
    chunks8 (w0 :: w1 :: w2 :: w3 :: w4 :: w5 :: w6 :: w7 :: rest) =
      [w0, w1, w2, w3, w4, w5, w6, w7] :: chunks8 rest := rfl

theorem length_lt_eight_of_no8 {ws : List Nat}
    (h2 : ∀ (w0 w1 w2 w3 w4 w5 w6 w7 : Nat) (rest : List Nat),
      ws = w0 :: w1 :: w2 :: w3 :: w4 :: w5 :: w6 :: w7 :: rest → False) :
    ws.length < 8 := by
  rcases ws with _ | ⟨a, _ | ⟨b, _ | ⟨c, _ | ⟨d, _ | ⟨e, _ | ⟨f, _ |
    ⟨g, _ | ⟨k, t⟩⟩⟩⟩⟩⟩⟩⟩
  · simp
  · simp
  · simp
  · simp
  · simp
  · simp
  · simp
  · simp
  · exact absurd rfl (h2 a b c d e f g k t)

theorem toWords_length (bs : List Nat) :
    (toWords bs).length = bs.length / 8 := by
  induction bs using toWords.induct with
  | case1 b0 b1 b2 b3 b4 b5 b6 b7 rest ih =>
      rw [toWords_cons]
      simp only [List.length_cons]
      rw [ih]
      omega
  | case2 bs h2 =>
      have hlt : bs.length < 8 := length_lt_eight_of_no8 h2
      have h0 : (8 : Nat) ∣ 8 := dvd_refl 8
      have : toWords bs = [] := by
        rcases bs with _ | ⟨a, _ | ⟨b, _ | ⟨c, _ | ⟨d, _ | ⟨e, _ | ⟨f, _ |
          ⟨g, _ | ⟨k, t⟩⟩⟩⟩⟩⟩⟩⟩ <;> first
          | rfl
          | exact absurd rfl (h2 _ _ _ _ _ _ _ _ _)
      rw [this]
      simp
      omega

theorem getD_shift8 (w0 w1 w2 w3 w4 w5 w6 w7 : Nat) (rest : List Nat)
    (k : Nat) :
    (w0 :: w1 :: w2 :: w3 :: w4 :: w5 :: w6 :: w7 :: rest).getD (k + 8) 0 =
      rest.getD k 0 := by
  simp [List.getD_eq_getElem?_getD]

theorem absorbBlockAt_shift (rc : List Nat) (w0 w1 w2 w3 w4 w5 w6 w7 : Nat)
    (rest : List Nat) (s : List Nat) (i : Nat) :
    absorbBlockAt rc (w0 :: w1 :: w2 :: w3 :: w4 :: w5 :: w6 :: w7 :: rest)
      s (i + 1) = absorbBlockAt rc rest s i := by
  unfold absorbBlockAt
  congr 1
  have hfun : (fun (st : List Nat) (j : Nat) => st.set j ((st.getD j 0) ^^^
        (w0 :: w1 :: w2 :: w3 :: w4 :: w5 :: w6 :: w7 :: rest).getD
          ((i + 1) * 8 + j) 0))
      = fun st j => st.set j ((st.getD j 0) ^^^ rest.getD (i * 8 + j) 0) := by
    funext st j
    have hidx : (i + 1) * 8 + j = (i * 8 + j) + 8 := by ring
    rw [hidx, getD_shift8]
  rw [hfun]

theorem absorbBlockAt_zero (w0 w1 w2 w3 w4 w5 w6 w7 : Nat) (rest : List Nat)
    (s : List Nat) :
    absorbBlockAt RC (w0 :: w1 :: w2 :: w3 :: w4 :: w5 :: w6 :: w7 :: rest)
      s 0 = absorbBlockSpec s [w0, w1, w2, w3, w4, w5, w6, w7] := rfl

theorem absorb_eq_chunks (ws : List Nat) (h : ws.length % 8 = 0)
    (st : List Nat) :
    vortex_core_absorb st ws = (chunks8 ws).foldl absorbBlockSpec st := by
  induction ws using chunks8.induct generalizing st with
  | case1 w0 w1 w2 w3 w4 w5 w6 w7 rest ih =>
      have hr : rest.length % 8 = 0 := by
        simp only [List.length_cons] at h; omega
      show vortexAbsorb RC st _ = _
      unfold vortexAbsorb
      have hlen :
          (w0 :: w1 :: w2 :: w3 :: w4 :: w5 :: w6 :: w7 :: rest).length / 8
            = rest.length / 8 + 1 := by
        simp only [List.length_cons]; omega
      rw [hlen, List.range_succ_eq_map, List.foldl_cons, List.foldl_map]
      have hstep : (fun (s : List Nat) (i : Nat) =>
            absorbBlockAt RC
              (w0 :: w1 :: w2 :: w3 :: w4 :: w5 :: w6 :: w7 :: rest) s
              (Nat.succ i))
          = absorbBlockAt RC rest := by
        funext s i
        exact absorbBlockAt_shift RC w0 w1 w2 w3 w4 w5 w6 w7 rest s i
      rw [hstep, chunks8_cons, List.foldl_cons, ← absorbBlockAt_zero]
      exact ih hr _
  | case2 ws h2 =>
      have hlt : ws.length < 8 := length_lt_eight_of_no8 h2
      have h0 : ws = [] := List.length_eq_zero.mp (by omega)
      subst h0
      rfl

/-- C1: the digest of every byte list is computed by the sponge
composition: starting from a fresh copy of the IV, the big-endian word
stream of the padded input is split into consecutive 8-word blocks; each
block in ascending order is XORed into lanes `0..7` and followed by
exactly one permutation call; after the last block exactly one more
permutation call runs with no input XORed in, and the digest is read from
lanes `0..7`. -/
theorem digest_is_sponge (data : List Nat) :
    vortex_v512_v1 data =
      String.mk ((((vortex_p ((chunks8 (toWords (pad data))).foldl
        absorbBlockSpec VORTEX_IV)).take 8).map fmt016x).flatten) := by
  have hmod : (toWords (pad data)).length % 8 = 0 := by
    rw [toWords_length]
    have := pad_length_mod data
    omega
  show String.mk ((((vortex_p (vortex_core_absorb VORTEX_IV
      (toWords (pad data)))).take 8).map fmt016x).flatten) = _
  rw [absorb_eq_chunks _ hmod]

/-! ## The permutation implements the specified rounds (C2) -/

theorem toFun_apply (s : List Nat) (k : Nat) (hk : k < 16) :
    toFun s ⟨k, hk⟩ = s.getD k 0 := rfl

theorem toFun_set {s : List Nat} (h : s.length = 16) {k : Nat} (hk : k < 16)
    (v : Nat) :
    toFun (s.set k v) = Function.update (toFun s) ⟨k, hk⟩ v := by
  funext j
  by_cases hj : j = (⟨k, hk⟩ : Fin 16)
  · subst hj
    show (s.set k v).getD k 0 = _
    rw [getD_set_eq (by omega), Function.update_same]
  · have hxy : k ≠ j.val := by
      intro hkj
      exact hj (Fin.ext hkj.symm)
    show (s.set k v).getD j.val 0 = _
    rw [getD_set_ne hxy, Function.update_noteq hj]
    rfl

theorem butterflyStep_sim (r : Nat) {s : List Nat} (h : s.length = 16)
    {i : Nat} (hi : i < 16) :
    (butterflyStep r s i).length = 16 ∧
      toFun (butterflyStep r s i) = specButterflyStep r (toFun s) i := by
  have ht : butterflyTarget r i < 16 := by unfold butterflyTarget; omega
  have htne : butterflyTarget r i ≠ i := butterflyTarget_ne_of_lt r i hi
  refine ⟨by simp [butterflyStep, h], ?_⟩
  unfold butterflyTarget at ht htne
  unfold butterflyStep specButterflyStep butterflyTarget
  dsimp only
  simp only [Nat.mod_eq_of_lt hi]
  simp only [and_mask_eq_mod]
  simp only [toFun_apply]
  set t := (i + (r % 7 + 1)) % 16 with ht0
  have hTI : (⟨t, ht⟩ : Fin 16) ≠ (⟨i, hi⟩ : Fin 16) := by
    simp only [ne_eq, Fin.mk.injEq]
    exact htne
  simp only [Function.update_noteq hTI, Function.update_same]
  set v1 := (s.getD i 0 + s.getD t 0) % 2 ^ 64 with hv1
  have e1 : (s.set i v1).getD t 0 = s.getD t 0 :=
    getD_set_ne (Ne.symm htne) v1
  have e2 : (s.set i v1).getD i 0 = v1 := getD_set_eq (by omega) v1
  rw [e1, e2]
  set v2 := s.getD t 0 ^^^ v1 with hv2
  have e3 : ((s.set i v1).set t v2).getD t 0 = v2 :=
    getD_set_eq (by simp only [List.length_set]; omega) v2
  rw [e3]
  rw [toFun_set (by simp [h]) ht, toFun_set (by simp [h]) ht, toFun_set h hi]
  have hTI2 : (⟨(i + (r % 7 + 1)) % 16, by omega⟩ : Fin 16) ≠
      (⟨i % 16, by omega⟩ : Fin 16) := by
    simp only [ne_eq, Fin.mk.injEq]
    omega
  simp only [Function.update_noteq hTI2]
  rfl

theorem injectConsts_sim (r : Nat) {s : List Nat} (h : s.length = 16) :
    (injectConsts RC r s).length = 16 ∧
      toFun (injectConsts RC r s) = specInject r (toFun s) := by
  refine ⟨by simp [injectConsts, h], ?_⟩
  unfold injectConsts specInject
  dsimp only
  have e1 : (s.set 0 ((s.getD 0 0) ^^^ RC.getD r 0)).getD 15 0 =
      s.getD 15 0 := getD_set_ne (by omega) _
  rw [e1]
  have hF : (⟨15, by omega⟩ : Fin 16) ≠ (⟨0, by omega⟩ : Fin 16) := by
    simp only [ne_eq, Fin.mk.injEq]
    omega
  simp only [Function.update_noteq hF]
  rw [toFun_set (by simp [h]) (show (15 : Nat) < 16 by omega),
    toFun_set h (show (0 : Nat) < 16 by omega)]
  rfl

theorem shredStep_sim {s : List Nat} (h : s.length = 16) {i : Nat}
    (hi : i < 15) :
    (shredStep s i).length = 16 ∧
      toFun (shredStep s i) = specShredStep (toFun s) i := by
  refine ⟨by simp [shredStep, h], ?_⟩
  unfold shredStep specShredStep
  have hfin1 : (⟨(i + 1) % 16, by omega⟩ : Fin 16) = ⟨i + 1, by omega⟩ :=
    Fin.ext (show (i + 1) % 16 = i + 1 by omega)
  have hfin2 : (⟨i % 16, by omega⟩ : Fin 16) = ⟨i, by omega⟩ :=
    Fin.ext (show i % 16 = i by omega)
  rw [hfin1, hfin2, toFun_set h (show i + 1 < 16 by omega)]
  rfl

theorem foldl_sim {γ : Type} (R : List Nat → γ → Prop)
    (f : List Nat → Nat → List Nat) (g : γ → Nat → γ) :
    ∀ (l : List Nat), (∀ i ∈ l, ∀ a c, R a c → R (f a i) (g c i)) →
      ∀ a c, R a c → R (l.foldl f a) (l.foldl g c) := by
  intro l
  induction l with
  | nil => intro _ a c hac; simpa using hac
  | cons x t ih =>
      intro hstep a c hac
      simp only [List.foldl_cons]
      exact ih (fun i hmem a c hr => hstep i (List.mem_cons_of_mem x hmem) a c hr)
        _ _ (hstep x (List.mem_cons_self x t) a c hac)

theorem vortexRound_sim {s : List Nat} (h : s.length = 16) (r : Nat) :
    (vortexRound RC s r).length = 16 ∧
      toFun (vortexRound RC s r) = specRound (toFun s) r := by
  unfold vortexRound specRound
  exact foldl_sim (fun a c => a.length = 16 ∧ toFun a = c) shredStep
    specShredStep (List.range 15)
    (fun i hmem a c hac => by
      obtain ⟨hlen, rfl⟩ := hac
      exact shredStep_sim hlen (List.mem_range.mp hmem))
    _ _
    (foldl_sim (fun a c => a.length = 16 ∧ toFun a = c) (butterflyStep r)
      (specButterflyStep r) (List.range 16)
      (fun i hmem a c hac => by
        obtain ⟨hlen, rfl⟩ := hac
        exact butterflyStep_sim r hlen (List.mem_range.mp hmem))
      _ _ (injectConsts_sim r h))

/-- C2: on every 16-lane state, the permutation engine performs exactly 12
rounds `r = 0..11`, each consisting of the specified constant injection,
the 16 sequential butterfly iterations in ascending order (wrapping
addition, dependent XOR, rotation by `19 + i + r`), and the 15 sequential
shredder XOR iterations in ascending order; it reads nothing but the state
and `RC`, always producing a 16-lane state. -/
theorem vortex_p_spec (s : List Nat) (h : s.length = 16) :
    (vortex_p s).length = 16 ∧ toFun (vortex_p s) = specPerm (toFun s) := by
  unfold vortex_p vortexPerm specPerm
  exact foldl_sim (fun a c => a.length = 16 ∧ toFun a = c) (vortexRound RC)
    specRound (List.range 12)
    (fun r hmem a c hac => by
      obtain ⟨hlen, rfl⟩ := hac
      exact vortexRound_sim hlen r)
    _ _ ⟨h, rfl⟩

theorem vortex_p_spec_witness :
    VORTEX_IV.length = 16 ∧ ((vortex_p VORTEX_IV).length = 16 ∧
      toFun (vortex_p VORTEX_IV) = specPerm (toFun VORTEX_IV)) :=
  ⟨by decide, vortex_p_spec VORTEX_IV (by decide)⟩

/-! ## State invariants -/

theorem getD_lt {s : List Nat} {n : Nat} (hn : 0 < n) (h : ∀ x ∈ s, x < n)
    (k : Nat) : s.getD k 0 < n := by
  by_cases hk : k < s.length
  · rw [getD_eq_getElem hk]; exact h _ (List.getElem_mem hk)
  · rw [List.getD_eq_getElem?_getD, List.getElem?_eq_none (by omega)]
    exact hn

theorem RC_bound : ∀ x ∈ RC, x < 2 ^ 64 := by decide

theorem StateOk_IV : StateOk VORTEX_IV := ⟨by decide, by decide⟩

theorem StateOk_set {s : List Nat} (hs : StateOk s) {v : Nat}
    (hv : v < 2 ^ 64) (k : Nat) : StateOk (s.set k v) := by
  obtain ⟨h1, h2⟩ := hs
  refine ⟨by simp [h1], ?_⟩
  intro x hx
  rcases List.mem_or_eq_of_mem_set hx with hmem | rfl
  · exact h2 x hmem
  · exact hv

theorem butterflyStep_ok (r i : Nat) {s : List Nat} (hs : StateOk s) :
    StateOk (butterflyStep r s i) := by
  unfold butterflyStep
  dsimp only
  apply StateOk_set
  · apply StateOk_set
    · exact StateOk_set hs (and_mask_lt _) i
    · exact Nat.xor_lt_two_pow
        (getD_lt (Nat.two_pow_pos 64) (StateOk_set hs (and_mask_lt _) i).2 _)
        (getD_lt (Nat.two_pow_pos 64) (StateOk_set hs (and_mask_lt _) i).2 _)
  · exact rotl_lt _ _

theorem injectConsts_ok (r : Nat) {s : List Nat} (hs : StateOk s) :
    StateOk (injectConsts RC r s) := by
  unfold injectConsts
  dsimp only
  have hrc : RC.getD r 0 < 2 ^ 64 := getD_lt (Nat.two_pow_pos 64) RC_bound r
  apply StateOk_set
  · exact StateOk_set hs
      (Nat.xor_lt_two_pow (getD_lt (Nat.two_pow_pos 64) hs.2 _) hrc) 0
  · exact Nat.xor_lt_two_pow
      (getD_lt (Nat.two_pow_pos 64)
        (StateOk_set hs
          (Nat.xor_lt_two_pow (getD_lt (Nat.two_pow_pos 64) hs.2 _) hrc) 0).2 _)
      (rotl_lt _ _)

theorem shredStep_ok (i : Nat) {s : List Nat} (hs : StateOk s) :
    StateOk (shredStep s i) := by
  unfold shredStep
  apply StateOk_set hs
  exact Nat.xor_lt_two_pow (getD_lt (Nat.two_pow_pos 64) hs.2 _)
    (rotl_lt _ _)

theorem foldl_ok {P : List Nat → Prop} (f : List Nat → Nat → List Nat)
    (l : List Nat) (hf : ∀ i ∈ l, ∀ a, P a → P (f a i)) :
    ∀ a, P a → P (l.foldl f a) := by
  induction l with
  | nil => intro a ha; simpa using ha
  | cons x t ih =>
      intro a ha
      simp only [List.foldl_cons]
      exact ih (fun i hmem a h => hf i (List.mem_cons_of_mem x hmem) a h) _
        (hf x (List.mem_cons_self x t) a ha)

theorem vortexRound_ok {s : List Nat} (hs : StateOk s) (r : Nat) :
    StateOk (vortexRound RC s r) := by
  unfold vortexRound
  refine foldl_ok _ (List.range 15) ?_ _ ?_
  · intro i _ a ha
    exact shredStep_ok i ha
  · refine foldl_ok _ (List.range 16) ?_ _ ?_
    · intro i _ a ha
      exact butterflyStep_ok r i ha
    · exact injectConsts_ok r hs

theorem vortex_p_ok {s : List Nat} (hs : StateOk s) : StateOk (vortex_p s) := by
  unfold vortex_p vortexPerm
  refine foldl_ok _ (List.range 12) ?_ _ hs
  intro r _ a ha
  exact vortexRound_ok ha r

theorem absorbBlockAt_ok {words : List Nat}
    (hw : ∀ w ∈ words, w < 2 ^ 64) {s : List Nat} (hs : StateOk s)
    (i : Nat) : StateOk (absorbBlockAt RC words s i) := by
  unfold absorbBlockAt
  show StateOk (vortex_p _)
  apply vortex_p_ok
  refine foldl_ok _ (List.range 8) ?_ s hs
  intro j _ a ha
  apply StateOk_set ha
  exact Nat.xor_lt_two_pow (getD_lt (Nat.two_pow_pos 64) ha.2 _)
    (getD_lt (Nat.two_pow_pos 64) hw _)

theorem vortex_core_absorb_ok {words : List Nat}
    (hw : ∀ w ∈ words, w < 2 ^ 64) {s : List Nat} (hs : StateOk s) :
    StateOk (vortex_core_absorb s words) := by
  unfold vortex_core_absorb vortexAbsorb
  refine foldl_ok _ (List.range (words.length / 8)) ?_ _ hs
  intro i _ a ha
  exact absorbBlockAt_ok hw ha i

theorem beWord_lt {b0 b1 b2 b3 b4 b5 b6 b7 : Nat} (h0 : b0 < 256)
    (h1 : b1 < 256) (h2 : b2 < 256) (h3 : b3 < 256) (h4 : b4 < 256)
    (h5 : b5 < 256) (h6 : b6 < 256) (h7 : b7 < 256) :
    beWord b0 b1 b2 b3 b4 b5 b6 b7 < 2 ^ 64 := by
  unfold beWord
  omega

theorem toWords_bound {bs : List Nat} (hb : ∀ b ∈ bs, b < 256) :
    ∀ w ∈ toWords bs, w < 2 ^ 64 := by
  induction bs using toWords.induct with
  | case1 b0 b1 b2 b3 b4 b5 b6 b7 rest ih =>
      intro w hw
      rw [toWords_cons] at hw
      rcases List.mem_cons.mp hw with rfl | hmem
      · exact beWord_lt (hb b0 (by simp)) (hb b1 (by simp)) (hb b2 (by simp))
          (hb b3 (by simp)) (hb b4 (by simp)) (hb b5 (by simp))
          (hb b6 (by simp)) (hb b7 (by simp))
      · exact ih (fun b hbm => hb b (by simp [hbm])) w hmem
  | case2 bs h2 =>
      intro w hw
      have hnil : toWords bs = [] := by
        rcases bs with _ | ⟨a, _ | ⟨b, _ | ⟨c, _ | ⟨d, _ | ⟨e, _ | ⟨f, _ |
          ⟨g, _ | ⟨k, t⟩⟩⟩⟩⟩⟩⟩⟩ <;> first
          | rfl
          | exact absurd rfl (h2 _ _ _ _ _ _ _ _ _)
      rw [hnil] at hw
      simp at hw

theorem pad_bound {x : List Nat} (hx : ∀ b ∈ x, b < 256) :
    ∀ b ∈ pad x, b < 256 := by
  intro b hb
  rw [pad_def'] at hb
  rcases List.mem_or_eq_of_mem_set hb with hmem | rfl
  · rcases List.mem_append.mp hmem with h1 | h2
    · exact hx b h1
    · rcases List.mem_cons.mp h2 with rfl | h3
      · norm_num
      · rw [List.eq_of_mem_replicate h3]; norm_num
  · have hbuf : ∀ b ∈ x ++ 0x06 :: List.replicate (padLen x.length) 0,
        b < 256 := by
      intro b hb
      rcases List.mem_append.mp hb with h1 | h2
      · exact hx b h1
      · rcases List.mem_cons.mp h2 with rfl | h3
        · norm_num
        · rw [List.eq_of_mem_replicate h3]; norm_num
    have h1 : (x ++ 0x06 :: List.replicate (padLen x.length) 0).getD
        (x.length + padLen x.length) 0 < 2 ^ 8 :=
      getD_lt (by norm_num) (by simpa using hbuf) _
    have h2 : (0x80 : Nat) < 2 ^ 8 := by norm_num
    have := Nat.or_lt_two_pow h1 h2
    simpa using this

/-! ## Hex rendering and the digest format (C5) -/

/-- Alphabet of lowercase hexadecimal digit characters. -/
def hexAlphabet : List Char := "0123456789abcdef".data

theorem hexChar_mem {n : Nat} (hn : n < 16) : hexChar n ∈ hexAlphabet := by
  interval_cases n <;> decide

theorem hexDigits_chars (x : Nat) : ∀ c ∈ hexDigits x, c ∈ hexAlphabet := by
  induction x using hexDigits.induct with
  | case1 x hx =>
      intro c hc
      rw [hexDigits, if_pos hx] at hc
      rcases List.mem_cons.mp hc with rfl | hfalse
      · exact hexChar_mem hx
      · simp at hfalse
  | case2 x hx ih =>
      intro c hc
      rw [hexDigits, if_neg hx] at hc
      rcases List.mem_append.mp hc with h1 | h2
      · exact ih c h1
      · rcases List.mem_cons.mp h2 with rfl | hfalse
        · exact hexChar_mem (Nat.mod_lt _ (by omega))
        · simp at hfalse

theorem hexDigits_len_pos (x : Nat) : 0 < (hexDigits x).length := by
  rw [hexDigits]
  by_cases hx : x < 16
  · rw [if_pos hx]; simp
  · rw [if_neg hx]; simp

theorem hexDigits_len_le : ∀ (k x : Nat), 0 < k → x < 16 ^ k →
    (hexDigits x).length ≤ k := by
  intro k
  induction k with
  | zero => omega
  | succ n ih =>
      intro x _ hx
      rw [hexDigits]
      by_cases h16 : x < 16
      · rw [if_pos h16]; simp
      · rw [if_neg h16]
        have hdiv : x / 16 < 16 ^ n := by
          apply Nat.div_lt_of_lt_mul
          have hp : 16 * 16 ^ n = 16 ^ (n + 1) := by ring
          omega
        have hn : 0 < n := by
          rcases Nat.eq_zero_or_pos n with rfl | hp
          · simp at hdiv; omega
          · exact hp
        have := ih (x / 16) hn hdiv
        simp only [List.length_append, List.length_cons, List.length_nil]
        omega

theorem fmt016x_length {x : Nat} (hx : x < 2 ^ 64) :
    (fmt016x x).length = 16 := by
  unfold fmt016x
  have h1 : (hexDigits x).length ≤ 16 := by
    apply hexDigits_len_le 16 x (by omega)
    have hp : (16 : Nat) ^ 16 = 2 ^ 64 := by norm_num
    omega
  simp only [List.length_append, List.length_replicate]
  omega

theorem fmt016x_chars (x : Nat) : ∀ c ∈ fmt016x x, c ∈ hexAlphabet := by
  unfold fmt016x
  intro c hc
  rcases List.mem_append.mp hc with h1 | h2
  · rw [List.eq_of_mem_replicate h1]; decide
  · exact hexDigits_chars x c h2

theorem flatten_fmt_length {l : List Nat} (hw : ∀ w ∈ l, w < 2 ^ 64) :
    ((l.map fmt016x).flatten).length = 16 * l.length := by
  induction l with
  | nil => simp
  | cons x t ih =>
      simp only [List.map_cons, List.flatten_cons, List.length_append,
        List.length_cons]
      rw [fmt016x_length (hw x (List.mem_cons_self x t)),
        ih (fun w hm => hw w (List.mem_cons_of_mem x hm))]
      ring

theorem digest_len128 (x : List Nat) (hx : ∀ b ∈ x, b < 256) :
    (vortex_v512_v1 x).length = 128 := by
  have hst : StateOk (vortex_p (vortex_core_absorb VORTEX_IV
      (toWords (pad x)))) :=
    vortex_p_ok (vortex_core_absorb_ok (toWords_bound (pad_bound hx))
      StateOk_IV)
  have htake : ∀ w ∈ (vortex_p (vortex_core_absorb VORTEX_IV
      (toWords (pad x)))).take 8, w < 2 ^ 64 :=
    fun w hw => hst.2 w (List.mem_of_mem_take hw)
  show (String.mk _).length = 128
  rw [String.length_mk, flatten_fmt_length htake, List.length_take]
  rw [hst.1]
  rfl

/-- C5: on every byte list (the empty one included), the digest is a
string of exactly 128 characters, all lowercase hexadecimal digits, and
each of the 8 leading state lanes is rendered as exactly 16 hex digits. -/
theorem digest_length_hex (x : List Nat) (hx : ∀ b ∈ x, b < 256) :
    (vortex_v512_v1 x).length = 128 ∧
      (∀ c ∈ (vortex_v512_v1 x).data, c ∈ hexAlphabet) ∧
      ∀ w ∈ (vortex_p (vortex_core_absorb VORTEX_IV
        (toWords (pad x)))).take 8, (fmt016x w).length = 16 := by
  have hst : StateOk (vortex_p (vortex_core_absorb VORTEX_IV
      (toWords (pad x)))) :=
    vortex_p_ok (vortex_core_absorb_ok (toWords_bound (pad_bound hx))
      StateOk_IV)
  have htake : ∀ w ∈ (vortex_p (vortex_core_absorb VORTEX_IV
      (toWords (pad x)))).take 8, w < 2 ^ 64 :=
    fun w hw => hst.2 w (List.mem_of_mem_take hw)
  refine ⟨digest_len128 x hx, ?_, fun w hw => fmt016x_length (htake w hw)⟩
  · show ∀ c ∈ (String.mk _).data, c ∈ hexAlphabet
    intro c hc
    simp only [String.data] at hc
    rcases List.mem_flatten.mp hc with ⟨cs, hcs, hcmem⟩
    rcases List.mem_map.mp hcs with ⟨w, hwmem, rfl⟩
    exact fmt016x_chars w c hcmem

theorem digest_length_hex_witness :
    (∀ b ∈ ([] : List Nat), b < 256) ∧
      (vortex_v512_v1 []).length = 128 :=
  ⟨by decide, (digest_length_hex [] (by decide)).1⟩

/-! ## Determinism and totality (C8) -/

/-- C8: the digest is a deterministic total function of the input byte
list: the embedding is a total function defined on every byte list
(including the empty one), and two evaluations on equal inputs produce the
same 128-character string — no state besides the input byte values enters
the computation. -/
theorem digest_deterministic_total (x y : List Nat)
    (hx : ∀ b ∈ x, b < 256) (hxy : x = y) :
    vortex_v512_v1 x = vortex_v512_v1 y ∧
      (vortex_v512_v1 x).length = 128 := by
  subst hxy
  exact ⟨rfl, digest_len128 x hx⟩

theorem digest_deterministic_total_witness :
    (∀ b ∈ ([] : List Nat), b < 256) ∧
      (vortex_v512_v1 [] = vortex_v512_v1 [] ∧
        (vortex_v512_v1 []).length = 128) :=
  ⟨by decide, digest_deterministic_total [] [] (by decide) rfl⟩

/-! ## Frame property of the constant tables (C9) -/

/-- C9: computing a digest never mutates the constant tables.  In the
heap-addressed model the IV and RC cells are unchanged after the run — the
working state is a fresh copy living in its own cell — and when those
cells hold `VORTEX_IV` and `RC` the produced string is exactly
`vortex_v512_v1 data`. -/
theorem heapDigest_frame (σ : Nat → List Nat) (ivRef rcRef sRef : Nat)
    (data : List Nat) (h1 : sRef ≠ ivRef) (h2 : sRef ≠ rcRef) :
    (heapDigest σ ivRef rcRef sRef data).1 ivRef = σ ivRef ∧
    (heapDigest σ ivRef rcRef sRef data).1 rcRef = σ rcRef ∧
    (σ ivRef = VORTEX_IV → σ rcRef = RC →
      (heapDigest σ ivRef rcRef sRef data).2 = vortex_v512_v1 data) := by
  unfold heapDigest
  dsimp only
  refine ⟨?_, ?_, ?_⟩
  · simp [Function.update_noteq (Ne.symm h1)]
  · simp [Function.update_noteq (Ne.symm h2)]
  · intro hiv hrc
    simp only [Function.update_same, Function.update_noteq (Ne.symm h1),
      Function.update_noteq (Ne.symm h2), hiv, hrc]
    rfl

theorem heapDigest_frame_witness :
    (heapDigest (fun n => if n = 0 then VORTEX_IV else
      if n = 1 then RC else []) 0 1 2 []).1 0 = VORTEX_IV := by
  have h := heapDigest_frame (fun n => if n = 0 then VORTEX_IV else
    if n = 1 then RC else []) 0 1 2 [] (by decide) (by decide)
  simpa using h.1

/-! ## Injectivity of the permutation (C10) -/

theorem testBit_rotl {x : Nat} (hx : x < 2 ^ 64) (r k : Nat) (hk : k < 64) :
    (rotl x r).testBit k = x.testBit ((k + 64 - r % 64) % 64) := by
  unfold rotl
  have hmask : (0xFFFFFFFFFFFFFFFF : Nat) = 2 ^ 64 - 1 := by norm_num
  rw [hmask, Nat.and_pow_two_sub_one_eq_mod, Nat.testBit_mod_two_pow,
    Nat.testBit_or, Nat.testBit_shiftLeft, Nat.testBit_shiftRight]
  simp only [hk, decide_True, Bool.true_and]
  set j := r % 64 with hj
  have hjlt : j < 64 := by omega
  by_cases h0 : j = 0
  · rw [h0]
    have ha : (64 - 0) % 64 = 0 := by omega
    have hb : (k + 64 - 0) % 64 = k := by omega
    rw [ha, hb]
    simp
  · have hm : (64 - j) % 64 = 64 - j := by omega
    rw [hm]
    by_cases hkj : j ≤ k
    · have h1 : (k + 64 - j) % 64 = k - j := by omega
      have h2 : x.testBit (64 - j + k) = false :=
        Nat.testBit_lt_two_pow (lt_of_lt_of_le hx
          (Nat.pow_le_pow_right (by omega) (by omega)))
      rw [h1, h2]
      simp [hkj]
    · have h1 : (k + 64 - j) % 64 = 64 - j + k := by omega
      have h2 : ¬ (j ≤ k) := hkj
      rw [h1]
      simp [h2]

theorem rotr_rotl {x : Nat} (hx : x < 2 ^ 64) (r : Nat) :
    rotr (rotl x r) r = x := by
  unfold rotr
  apply Nat.eq_of_testBit_eq
  intro k
  by_cases hk : k < 64
  · rw [testBit_rotl (rotl_lt x r) (64 - r % 64) k hk,
      testBit_rotl hx r _ (by omega)]
    congr 1
    omega
  · rw [Nat.testBit_lt_two_pow (lt_of_lt_of_le (rotl_lt _ _)
        (Nat.pow_le_pow_right (by omega) (by omega))),
      Nat.testBit_lt_two_pow (lt_of_lt_of_le hx
        (Nat.pow_le_pow_right (by omega) (by omega)))]

theorem set_getD_self {s : List Nat} (k : Nat) : s.set k (s.getD k 0) = s := by
  by_cases hk : k < s.length
  · apply ext_getD (by simp)
    intro j
    by_cases hj : j = k
    · subst hj
      rw [getD_set_eq hk]
    · rw [getD_set_ne (Ne.symm hj)]
  · exact List.set_eq_of_length_le (by omega)

theorem shredStep_invol {s : List Nat} (h : s.length = 16) {i : Nat}
    (hi : i < 15) : shredStep (shredStep s i) i = s := by
  unfold shredStep
  have e1 : (s.set (i + 1) ((s.getD (i + 1) 0) ^^^ rotl (s.getD i 0) 11)).getD
      (i + 1) 0 = (s.getD (i + 1) 0) ^^^ rotl (s.getD i 0) 11 :=
    getD_set_eq (by omega) _
  have e2 : (s.set (i + 1) ((s.getD (i + 1) 0) ^^^ rotl (s.getD i 0) 11)).getD
      i 0 = s.getD i 0 := getD_set_ne (by omega) _
  rw [e1, e2, List.set_set, Nat.xor_assoc, Nat.xor_self, Nat.xor_zero,
    set_getD_self]

theorem injectConsts_invol {s : List Nat} (h : s.length = 16) (r : Nat) :
    injectConsts RC r (injectConsts RC r s) = s := by
  unfold injectConsts
  dsimp only
  have e1 : (s.set 0 ((s.getD 0 0) ^^^ RC.getD r 0)).getD 15 0 =
      s.getD 15 0 := getD_set_ne (by omega) _
  rw [e1]
  have e2 : ((s.set 0 ((s.getD 0 0) ^^^ RC.getD r 0)).set 15
      ((s.getD 15 0) ^^^ rotl (RC.getD r 0) (r + 7))).getD 0 0 =
      (s.getD 0 0) ^^^ RC.getD r 0 := by
    rw [getD_set_ne (show (15 : Nat) ≠ 0 by omega) _,
      getD_set_eq (show (0 : Nat) < s.length by omega)]
  rw [e2]
  have e3 : (((s.set 0 ((s.getD 0 0) ^^^ RC.getD r 0)).set 15
      ((s.getD 15 0) ^^^ rotl (RC.getD r 0) (r + 7))).set 0
      (((s.getD 0 0) ^^^ RC.getD r 0) ^^^ RC.getD r 0)).getD 15 0 =
      (s.getD 15 0) ^^^ rotl (RC.getD r 0) (r + 7) := by
    rw [getD_set_ne (show (0 : Nat) ≠ 15 by omega) _]
    exact getD_set_eq (by simp [h]) _
  rw [e3, Nat.xor_assoc, Nat.xor_self, Nat.xor_zero, Nat.xor_assoc,
    Nat.xor_self, Nat.xor_zero]
  apply ext_getD (by simp)
  intro j
  by_cases hj0 : j = 0
  · subst hj0
    rw [getD_set_ne (show (15 : Nat) ≠ 0 by omega) _,
      getD_set_eq (by simp [h])]
  · by_cases hj15 : j = 15
    · subst hj15
      rw [getD_set_eq (by simp [h])]
    · rw [getD_set_ne (fun hc => hj15 hc.symm) _,
        getD_set_ne (fun hc => hj0 hc.symm) _,
        getD_set_ne (fun hc => hj15 hc.symm) _,
        getD_set_ne (fun hc => hj0 hc.symm) _]

theorem butterflyUnstep_cancel (r : Nat) {s : List Nat} (hs : StateOk s)
    {i : Nat} (hi : i < 16) :
    butterflyUnstep r (butterflyStep r s i) i = s := by
  obtain ⟨h, hb⟩ := hs
  have ht : butterflyTarget r i < 16 := by unfold butterflyTarget; omega
  have htne : butterflyTarget r i ≠ i := butterflyTarget_ne_of_lt r i hi
  unfold butterflyStep butterflyUnstep
  dsimp only
  set t := butterflyTarget r i with ht0
  set v1 := (s.getD i 0 + s.getD t 0) &&& 0xFFFFFFFFFFFFFFFF with hv1
  have e1 : (s.set i v1).getD t 0 = s.getD t 0 :=
    getD_set_ne (Ne.symm htne) v1
  have e2 : (s.set i v1).getD i 0 = v1 := getD_set_eq (by omega) v1
  rw [e1, e2]
  set v2 := s.getD t 0 ^^^ v1 with hv2
  have e3 : ((s.set i v1).set t v2).getD t 0 = v2 :=
    getD_set_eq (by simp only [List.length_set]; omega) v2
  rw [e3]
  set v3 := rotl v2 (19 + i + r) with hv3
  rw [List.set_set v2 v3 (s.set i v1) t]
  have e4 : ((s.set i v1).set t v3).getD t 0 = v3 :=
    getD_set_eq (by simp only [List.length_set]; omega) v3
  have e5 : ((s.set i v1).set t v3).getD i 0 = v1 := by
    rw [getD_set_ne htne v3, getD_set_eq (by omega)]
  rw [e4, e5]
  have hv1lt : v1 < 2 ^ 64 := and_mask_lt _
  have hblt : s.getD t 0 < 2 ^ 64 := getD_lt (Nat.two_pow_pos 64) hb t
  have halt : s.getD i 0 < 2 ^ 64 := getD_lt (Nat.two_pow_pos 64) hb i
  have hv2lt : v2 < 2 ^ 64 := Nat.xor_lt_two_pow hblt hv1lt
  have hrr : rotr v3 (19 + i + r) = v2 := by
    rw [hv3]
    exact rotr_rotl hv2lt (19 + i + r)
  rw [hrr, hv2, Nat.xor_assoc, Nat.xor_self, Nat.xor_zero,
    List.set_set v3 (s.getD t 0) (s.set i v1) t]
  have e6 : ((s.set i v1).set t (s.getD t 0)).getD i 0 = v1 := by
    rw [getD_set_ne htne _, getD_set_eq (by omega)]
  have e7 : ((s.set i v1).set t (s.getD t 0)).getD t 0 =
      s.getD t 0 := getD_set_eq (by simp only [List.length_set]; omega) _
  rw [e6, e7]
  have hval : (v1 + (2 ^ 64 - s.getD t 0)) % 2 ^ 64 = s.getD i 0 := by
    rw [hv1, and_mask_eq_mod]
    omega
  rw [hval]
  apply ext_getD (by simp [h])
  intro j
  by_cases hji : j = i
  · subst hji
    rw [getD_set_eq (by simp only [List.length_set]; omega)]
  · rw [getD_set_ne (fun hc => hji hc.symm) _]
    by_cases hjt : j = t
    · subst hjt
      rw [getD_set_eq (by simp only [List.length_set]; omega)]
    · rw [getD_set_ne (fun hc => hjt hc.symm) _,
        getD_set_ne (fun hc => hji hc.symm) _]

theorem foldl_inv (P : List Nat → Prop) (f g : List Nat → Nat → List Nat)
    (l : List Nat)
    (hf : ∀ i ∈ l, ∀ a, P a → P (f a i))
    (hg : ∀ i ∈ l, ∀ a, P a → g (f a i) i = a) :
    ∀ a, P a → l.reverse.foldl g (l.foldl f a) = a := by
  induction l with
  | nil => intro a _; simp
  | cons x t ih =>
      intro a ha
      simp only [List.foldl_cons, List.reverse_cons, List.foldl_append,
        List.foldl_nil]
      rw [ih (fun i hm a h => hf i (List.mem_cons_of_mem x hm) a h)
        (fun i hm a h => hg i (List.mem_cons_of_mem x hm) a h)
        (f a x) (hf x (List.mem_cons_self x t) a ha)]
      exact hg x (List.mem_cons_self x t) a ha

theorem butterflyUnround_cancel {s : List Nat} (hs : StateOk s) (r : Nat) :
    butterflyUnround r ((List.range 16).foldl (butterflyStep r) s) = s := by
  unfold butterflyUnround
  exact foldl_inv StateOk (butterflyStep r) (butterflyUnstep r)
    (List.range 16)
    (fun i _ a ha => butterflyStep_ok r i ha)
    (fun i hm a ha => butterflyUnstep_cancel r ha (List.mem_range.mp hm))
    s hs

theorem shredUnround_cancel {s : List Nat} (hs : StateOk s) :
    shredUnround ((List.range 15).foldl shredStep s) = s := by
  unfold shredUnround
  exact foldl_inv StateOk shredStep shredStep (List.range 15)
    (fun i _ a ha => shredStep_ok i ha)
    (fun i hm a ha => shredStep_invol ha.1 (List.mem_range.mp hm))
    s hs

theorem vortexUnround_cancel {s : List Nat} (hs : StateOk s) (r : Nat) :
    vortexUnround (vortexRound RC s r) r = s := by
  unfold vortexRound vortexUnround
  have h1 : StateOk ((List.range 16).foldl (butterflyStep r)
      (injectConsts RC r s)) :=
    foldl_ok _ (List.range 16) (fun i _ a ha => butterflyStep_ok r i ha) _
      (injectConsts_ok r hs)
  rw [shredUnround_cancel h1, butterflyUnround_cancel (injectConsts_ok r hs),
    injectConsts_invol hs.1]

theorem vortex_p_inv_cancel {s : List Nat} (hs : StateOk s) :
    vortex_p_inv (vortex_p s) = s := by
  unfold vortex_p vortexPerm vortex_p_inv
  exact foldl_inv StateOk (vortexRound RC) vortexUnround (List.range 12)
    (fun r _ a ha => vortexRound_ok ha r)
    (fun r _ a ha => vortexUnround_cancel ha r)
    s hs

/-- C10: the permutation engine is injective (hence a bijection) on
16-lane states of 64-bit words: every constituent step is invertible, and
the explicit inverse `vortex_p_inv` undoes `vortex_p`, so two distinct
states never produce the same output state. -/
theorem vortex_p_injective (s t : List Nat) (hs : StateOk s) (ht : StateOk t)
    (h : vortex_p s = vortex_p t) : s = t := by
  have h1 := vortex_p_inv_cancel hs
  have h2 := vortex_p_inv_cancel ht
  rw [← h1, ← h2, h]

theorem vortex_p_injective_witness :
    StateOk VORTEX_IV ∧ VORTEX_IV = VORTEX_IV :=
  ⟨⟨by decide, by decide⟩,
    vortex_p_injective VORTEX_IV VORTEX_IV ⟨by decide, by decide⟩
      ⟨by decide, by decide⟩ rfl⟩

end Vortex
